import Mathlib

/-!
Verification of the Timed Segment Resolution & Composition Engine
(gap resolution, content-aware reframing, track composition, and the
Pexels background-video selection) against its natural-language
specification.

The Python sources are shallowly embedded:

* `utility/video/video_search_query_generator.py`, `merge_empty_intervals`
  — `fpRev`/`spRev`/`merge_empty_intervals` below.  Timestamps are
  modelled as rationals (the Python code only copies and compares them
  for equality, so no floating-point rounding is involved).  The Python
  accumulator lists (`merged`, `final_merged`) are kept in reversed
  order (most recently appended element first) so that the Python
  ``merged[-1]`` access and in-place update of the last element become
  head pattern-matches; the public function reverses at the end.

* `utility/render/render_engine.py`, `yolo_reframe_clip` — the
  per-frame geometry (`yoloWindow`, `appliedCrop`, `processFrameDims`,
  `updateAnchor`) and the detector-unavailable path (`reframeDims`).
  A frame is represented by its pixel dimensions; the external
  resize operation of the video library is modelled as the
  aspect-preserving integer dimension map `resizeHeightDims`.

* `utility/render/render_engine.py`, `get_output_media` — the
  segment-processing loop, duration reconciliation and output writing
  (`processedEnds`, `finalDuration`, `compositeDuration`,
  `get_output_media`).  External effects (download/decode success,
  audio duration, final write success) are supplied by a `RenderEnv`
  oracle.

* `utility/video/background_video_generator.py`, `getBestVideo` and
  `generate_video_url` — `getBestVideo`, `genLoop`,
  `generate_video_url` below, with the per-query Pexels search results
  supplied by an oracle.
-/

/-- A background segment `[[t1, t2], url]` as handled by
`merge_empty_intervals` and `get_output_media`: a half-open time
interval together with an optional media URL (`none` = Python `None`,
an absent media reference). -/
structure Seg where
  s : ℚ
  e : ℚ
  url : Option String
deriving DecidableEq

instance : Inhabited Seg := ⟨⟨0, 0, none⟩⟩

/-- Helper: length of `dropWhile` never exceeds the original length
(used for the termination of `fpRev`). -/
theorem length_dropWhile_le (p : Seg → Bool) (l : List Seg) :
    (l.dropWhile p).length ≤ l.length := by
  induction l with
  | nil => simp [List.dropWhile]
  | cons a t ih =>
    by_cases h : p a
    · simp only [List.dropWhile_cons, h, if_true]
      exact Nat.le_succ_of_le ih
    · simp [List.dropWhile_cons, h]

/-- First pass of `merge_empty_intervals` (the `while i < len(segments)`
loop).  `acc` is the Python list `merged`, kept reversed: consing is
Python's `merged.append`, replacing the head is Python's assignment to
`merged[-1]`.  A `None` segment starts a maximal run of consecutive
`None` segments (`takeWhile`/`dropWhile` mirror the inner
`while j < len(segments)` scan); `endT` is Python's
`segments[j-1][0][1]`, the end of the last segment of the run. -/
def fpRev (acc : List Seg) : List Seg → List Seg
  | [] => acc
  | seg :: rest =>
    if seg.url = none then
      let run := rest.takeWhile fun t => t.url = none
      let rest' := rest.dropWhile fun t => t.url = none
      let endT := ((seg :: run).getLastD seg).e
      let acc' :=
        match acc with
        | p :: accTail =>
          if p.url ≠ none then
            if p.e = seg.s then ⟨p.s, endT, p.url⟩ :: accTail
            else ⟨seg.s, endT, none⟩ :: p :: accTail
          else ⟨seg.s, endT, none⟩ :: p :: accTail
        | [] => [⟨seg.s, endT, none⟩]
      fpRev acc' rest'
    else fpRev (seg :: acc) rest
termination_by l => l.length
decreasing_by
  · exact Nat.lt_succ_of_le (length_dropWhile_le _ _)
  · exact Nat.lt_succ_of_le (Nat.le_refl _)

/-- Second pass of `merge_empty_intervals` (the
`for k in range(len(merged))` loop).  `acc` is the Python list
`final_merged`, again reversed.  `k` is the loop index.  A `None`
segment with `k > 0` extends the previously kept segment when that
segment carries a URL (Python's `final_merged[-1] = [[prev_interval[0],
interval[1]], prev_url]`) and is silently dropped otherwise; a `None`
segment at `k = 0` is kept. -/
def spRev (acc : List Seg) (k : ℕ) : List Seg → List Seg
  | [] => acc
  | seg :: rest =>
    if seg.url = none then
      if 0 < k then
        match acc with
        | p :: accTail =>
          if p.url ≠ none then spRev (⟨p.s, seg.e, p.url⟩ :: accTail) (k + 1) rest
          else spRev (p :: accTail) (k + 1) rest
        | [] => spRev [] (k + 1) rest
      else spRev (seg :: acc) (k + 1) rest
    else spRev (seg :: acc) (k + 1) rest

/-- `merge_empty_intervals(segments)` from
`utility/video/video_search_query_generator.py`: the first pass merges
runs of `None` segments and absorbs them into an adjacent preceding
URL segment, the second pass extends preceding URL segments over any
surviving `None` segments.  (The defensive `isinstance` structure
checks of the Python code are vacuous in this typed embedding, and
`if not segments: return []` coincides with running both passes on the
empty list.) -/
def merge_empty_intervals (segments : List Seg) : List Seg :=
  (spRev [] 0 ((fpRev [] segments).reverse)).reverse

/-- On a list whose members all carry URLs, `takeWhile (url = none)`
finds nothing. -/
theorem takeWhile_none_eq_nil {l : List Seg} (h : ∀ t ∈ l, t.url ≠ none) :
    l.takeWhile (fun t => t.url = none) = [] := by
  cases l with
  | nil => rfl
  | cons a rest =>
    have ha := h a (by simp)
    simp [List.takeWhile_cons, ha]

/-- On a list whose members all carry URLs, `dropWhile (url = none)`
drops nothing. -/
theorem dropWhile_none_eq_self {l : List Seg} (h : ∀ t ∈ l, t.url ≠ none) :
    l.dropWhile (fun t => t.url = none) = l := by
  cases l with
  | nil => rfl
  | cons a rest =>
    have ha := h a (by simp)
    simp [List.dropWhile_cons, ha]

/-- The first pass appends URL-carrying segments unchanged. -/
theorem fpRev_of_all_some (l : List Seg) :
    ∀ acc, (∀ t ∈ l, t.url ≠ none) → fpRev acc l = l.reverse ++ acc := by
  induction l with
  | nil => intro acc _; simp [fpRev]
  | cons a rest ih =>
    intro acc h
    have ha : ¬ a.url = none := h a (by simp)
    rw [fpRev, if_neg ha, ih _ (fun t ht => h t (by simp [ht]))]
    simp

/-- The second pass appends URL-carrying segments unchanged. -/
theorem spRev_of_all_some (l : List Seg) :
    ∀ acc k, (∀ t ∈ l, t.url ≠ none) → spRev acc k l = l.reverse ++ acc := by
  induction l with
  | nil => intro acc k _; simp [spRev]
  | cons a rest ih =>
    intro acc k h
    have ha : ¬ a.url = none := h a (by simp)
    rw [spRev.eq_def]
    simp only [if_neg ha]
    rw [ih _ _ (fun t ht => h t (by simp [ht]))]
    simp

/-- On an input whose only possible `None` segment is the head, the
first pass is the identity (up to the accumulator reversal). -/
theorem fpRev_id_of_tail_some (y : List Seg) (h : ∀ t ∈ y.tail, t.url ≠ none) :
    fpRev [] y = y.reverse := by
  cases y with
  | nil => simp [fpRev]
  | cons a rest =>
    simp only [List.tail_cons] at h
    by_cases ha : a.url = none
    · rw [fpRev, if_pos ha]
      simp only [takeWhile_none_eq_nil h, dropWhile_none_eq_self h]
      rcases a with ⟨as, ae, au⟩
      simp only at ha
      subst ha
      simp only [List.getLastD_cons, List.getLastD_nil]
      rw [fpRev_of_all_some rest _ h]
      simp
    · rw [fpRev, if_neg ha, fpRev_of_all_some rest _ h]
      simp

/-- On an input whose only possible `None` segment is the head, the
second pass is the identity (up to the accumulator reversal): the head
is kept by the `k = 0` branch and everything else carries a URL. -/
theorem spRev_id_of_tail_some (y : List Seg) (h : ∀ t ∈ y.tail, t.url ≠ none) :
    spRev [] 0 y = y.reverse := by
  cases y with
  | nil => simp [spRev]
  | cons a rest =>
    simp only [List.tail_cons] at h
    by_cases ha : a.url = none
    · rw [spRev.eq_def]
      simp only [if_pos ha, Nat.lt_irrefl, if_false]
      rw [spRev_of_all_some rest _ _ h]
      simp
    · rw [spRev.eq_def]
      simp only [if_neg ha]
      rw [spRev_of_all_some rest _ _ h]
      simp

/-- Every segment the second pass ever appends below the top of its
accumulator carries a URL: a `None` segment is appended only at
`k = 0`, when the accumulator is empty. -/
theorem spRev_shape (l : List Seg) :
    ∀ acc k, (k = 0 → acc = []) → (∀ t ∈ acc.dropLast, t.url ≠ none) →
      ∀ t ∈ (spRev acc k l).dropLast, t.url ≠ none := by
  induction l with
  | nil => intro acc k _ hacc; simpa [spRev] using hacc
  | cons a rest ih =>
    intro acc k hk hacc
    by_cases ha : a.url = none
    · rw [spRev.eq_def]
      simp only [if_pos ha]
      by_cases hk0 : 0 < k
      · rw [if_pos hk0]
        cases acc with
        | nil => exact ih [] (k + 1) (by omega) (by simp)
        | cons p accTail =>
          dsimp only
          by_cases hp : p.url ≠ none
          · rw [if_pos hp]
            refine ih _ (k + 1) (by omega) ?_
            intro t ht
            cases accTail with
            | nil => simp [List.dropLast_single] at ht
            | cons b accTail' =>
              rw [List.dropLast_cons₂] at ht hacc
              rw [List.mem_cons] at ht
              rcases ht with rfl | ht
              · simpa using hp
              · exact hacc t (by simp [ht])
          · rw [if_neg hp]
            exact ih _ (k + 1) (by omega) hacc
      · rw [if_neg hk0]
        have hae : acc = [] := hk (by omega)
        subst hae
        exact ih _ (k + 1) (by omega) (by simp)
    · rw [spRev.eq_def]
      simp only [if_neg ha]
      refine ih _ (k + 1) (by omega) ?_
      intro t ht
      cases acc with
      | nil => simp [List.dropLast_single] at ht
      | cons b acc' =>
        rw [List.dropLast_cons₂] at ht
        rw [List.mem_cons] at ht
        rcases ht with rfl | ht
        · exact ha
        · exact hacc t ht

/-- Every segment of a `merge_empty_intervals` output other than the
first carries a URL (the second pass only ever appends a `None` segment
at index 0). -/
theorem merge_empty_intervals_tail_some (x : List Seg) :
    ∀ t ∈ (merge_empty_intervals x).tail, t.url ≠ none := by
  intro t ht
  unfold merge_empty_intervals at ht
  rw [List.tail_reverse, List.mem_reverse] at ht
  exact spRev_shape _ [] 0 (fun _ => rfl) (by simp) t ht

/-- `merge_empty_intervals` is the identity on any list whose only
possible `None` segment is the head — in particular on its own
output. -/
theorem merge_empty_intervals_fix (y : List Seg) (h : ∀ t ∈ y.tail, t.url ≠ none) :
    merge_empty_intervals y = y := by
  unfold merge_empty_intervals
  rw [fpRev_id_of_tail_some y h, List.reverse_reverse, spRev_id_of_tail_some y h,
    List.reverse_reverse]

/-- **C5**: gap resolution is idempotent.  For every input segment
sequence `x` (contiguous or not), running `merge_empty_intervals` a
second time on its own output changes nothing. -/
theorem merge_empty_intervals_idempotent (x : List Seg) :
    merge_empty_intervals (merge_empty_intervals x) = merge_empty_intervals x :=
  merge_empty_intervals_fix _ (merge_empty_intervals_tail_some x)

/-- The first segment of a `dropWhile (url = none)` result, if any,
carries a URL. -/
theorem head_dropWhile_some (l : List Seg) :
    ∀ q ∈ (l.dropWhile fun t => t.url = none).head?, q.url ≠ none := by
  induction l with
  | nil => simp [List.dropWhile]
  | cons a rest ih =>
    by_cases ha : a.url = none
    · simpa [List.dropWhile_cons, ha] using ih
    · simp [List.dropWhile_cons, ha]

/-- Splitting a contiguous list at the end of its leading `None` run:
the remainder is contiguous and the run's last end meets the
remainder's first start. -/
theorem chain_split_run (seg : Seg) (rest : List Seg)
    (hch : List.Chain' (fun a b => a.e = b.s) (seg :: rest)) :
    List.Chain' (fun a b => a.e = b.s) (rest.dropWhile fun t => t.url = none) ∧
    (∀ x ∈ (seg :: (rest.takeWhile fun t => t.url = none)).getLast?,
      ∀ y ∈ (rest.dropWhile fun t => t.url = none).head?, x.e = y.s) := by
  have h : seg :: rest =
      (seg :: (rest.takeWhile fun t => t.url = none)) ++
        (rest.dropWhile fun t => t.url = none) := by
    rw [List.cons_append, List.takeWhile_append_dropWhile]
  rw [h] at hch
  have h2 := List.chain'_append.mp hch
  exact ⟨h2.2.1, h2.2.2⟩

/-- Master invariant of the first pass on a contiguous input.  The
accumulator `acc` is the already-committed output, reversed.  Provided
`acc` is reverse-contiguous, its non-bottom entries all carry URLs, its
top end equals `l`'s first start, and its top carries a URL whenever
`l` starts with a `None` segment, then `fpRev acc l` is
reverse-contiguous, has URLs everywhere except possibly at its bottom,
keeps the bottom's start time and URL (taking them from `l`'s head when
`acc` is empty), and its top end is the last end of `l` (of `acc` when
`l` is empty). -/
theorem fpRev_master :
    ∀ (n : ℕ) (l acc : List Seg), l.length ≤ n →
    List.Chain' (fun a b => a.e = b.s) l →
    List.Chain' (fun a b => b.e = a.s) acc →
    (∀ p ∈ acc.head?, ∀ q ∈ l.head?, p.e = q.s) →
    (∀ t ∈ acc.dropLast, t.url ≠ none) →
    (∀ p ∈ acc.head?, p.url = none → ∀ q ∈ l.head?, q.url ≠ none) →
    List.Chain' (fun a b => b.e = a.s) (fpRev acc l) ∧
    (∀ t ∈ (fpRev acc l).dropLast, t.url ≠ none) ∧
    ((fpRev acc l).getLast?.map fun p => (p.s, p.url)) =
      ((acc.getLast?.map fun p => (p.s, p.url)).or
        (l.head?.map fun q => (q.s, q.url))) ∧
    ((fpRev acc l).head?.map Seg.e =
      ((l.getLast?.map Seg.e).or (acc.head?.map Seg.e))) := by
  intro n
  induction n with
  | zero =>
    intro l acc hn hchl hacc hA2 hA3 hA5
    have hl : l = [] := by cases l <;> simp_all
    subst hl
    rw [fpRev]
    refine ⟨hacc, hA3, ?_, by simp⟩
    cases h : acc.getLast? <;> simp [h]
  | succ n ih =>
    intro l acc hn hchl hacc hA2 hA3 hA5
    cases l with
    | nil =>
      rw [fpRev]
      refine ⟨hacc, hA3, ?_, by simp⟩
      cases h : acc.getLast? <;> simp [h]
    | cons seg rest =>
      by_cases hseg : seg.url = none
      · -- a None run starts here
        rw [fpRev.eq_def]
        dsimp only
        rw [if_pos hseg]
        have hsplit := List.takeWhile_append_dropWhile
          (p := fun t => t.url = none) (l := rest)
        have hcs := chain_split_run seg rest hchl
        obtain ⟨z, hz⟩ : ∃ z, (seg :: (rest.takeWhile fun t => t.url = none)).getLast? = some z := by
          cases h : (seg :: (rest.takeWhile fun t => t.url = none)).getLast? with
          | none => rw [List.getLast?_eq_none_iff] at h; simp at h
          | some z => exact ⟨z, rfl⟩
        have hend : ((seg :: (rest.takeWhile fun t => t.url = none)).getLastD seg) = z := by
          rw [List.getLastD_eq_getLast?, hz]; rfl
        have hjun : ∀ y ∈ (rest.dropWhile fun t => t.url = none).head?, z.e = y.s :=
          fun y hy => hcs.2 z hz y hy
        have hlen : (rest.dropWhile fun t => t.url = none).length ≤ n := by
          have := length_dropWhile_le (fun t => decide (t.url = none)) rest
          simp at hn
          omega
        -- the end of the whole input, as used for clause 4
        have hLlast : (seg :: rest).getLast?.map Seg.e =
            (((rest.dropWhile fun t => t.url = none).getLast?.map Seg.e).or
              (some z.e)) := by
          cases hdw : rest.dropWhile (fun t => t.url = none) with
          | nil =>
            have hrun : rest.takeWhile (fun t => t.url = none) = rest := by
              rw [hdw] at hsplit; simpa using hsplit
            rw [hrun] at hz
            simp [hz]
          | cons r rs =>
            obtain ⟨w, hw⟩ : ∃ w, (r :: rs).getLast? = some w := by
              cases h : (r :: rs).getLast? with
              | none => rw [List.getLast?_eq_none_iff] at h; simp at h
              | some w => exact ⟨w, rfl⟩
            have : (seg :: rest).getLast? = some w := by
              conv_lhs => rw [show seg :: rest =
                (seg :: (rest.takeWhile fun t => t.url = none)) ++
                  (rest.dropWhile fun t => t.url = none) by
                rw [List.cons_append, List.takeWhile_append_dropWhile]]
              rw [List.getLast?_append, hdw, hw]
              rfl
            rw [this, hw]
            rfl
        cases acc with
        | nil =>
          dsimp only
          rw [hend]
          have hres := ih (rest.dropWhile fun t => t.url = none)
            [⟨seg.s, z.e, none⟩] hlen hcs.1 (by simp)
            (by intro p hp y hy
                simp only [List.head?_cons, Option.mem_def, Option.some.injEq] at hp
                subst hp
                exact hjun y hy)
            (by simp)
            (by intro p hp _ q hq
                exact head_dropWhile_some rest q hq)
          refine ⟨hres.1, hres.2.1, ?_, ?_⟩
          · rw [hres.2.2.1]
            simp [hseg]
          · rw [hres.2.2.2, hLlast]
            simp
        | cons p accTail =>
          dsimp only
          by_cases hp : p.url ≠ none
          swap
          · exfalso
            simp only [not_not] at hp
            exact (hA5 p (by simp) hp seg (by simp)) hseg
          by_cases hpe : p.e = seg.s
          swap
          · exact absurd (hA2 p (by simp) seg (by simp)) hpe
          rw [if_pos hp, if_pos hpe, hend]
          have hres := ih (rest.dropWhile fun t => t.url = none)
            (⟨p.s, z.e, p.url⟩ :: accTail) hlen hcs.1
            (by rw [List.chain'_cons']
                constructor
                · intro y hy
                  have := (List.chain'_cons'.mp hacc).1 y hy
                  simpa using this
                · exact (List.chain'_cons'.mp hacc).2)
            (by intro pp hpp y hy
                simp only [List.head?_cons, Option.mem_def, Option.some.injEq] at hpp
                subst hpp
                exact hjun y hy)
            (by intro t ht
                cases accTail with
                | nil => simp [List.dropLast_single] at ht
                | cons b accTail' =>
                  rw [List.dropLast_cons₂, List.mem_cons] at ht
                  rcases ht with rfl | ht
                  · simpa using hp
                  · exact hA3 t (by rw [List.dropLast_cons₂, List.mem_cons]; right; exact ht))
            (by intro pp hpp hppu
                simp only [List.head?_cons, Option.mem_def, Option.some.injEq] at hpp
                subst hpp
                simp only at hppu
                exact absurd hppu hp)
          refine ⟨hres.1, hres.2.1, ?_, ?_⟩
          · rw [hres.2.2.1]
            cases accTail with
            | nil => simp
            | cons b accTail' =>
              rw [List.getLast?_cons_cons]
              obtain ⟨w, hw⟩ : ∃ w, (b :: accTail').getLast? = some w := by
                cases h : (b :: accTail').getLast? with
                | none => rw [List.getLast?_eq_none_iff] at h; simp at h
                | some w => exact ⟨w, rfl⟩
              simp [hw]
          · rw [hres.2.2.2, hLlast]
            cases hX : (rest.dropWhile fun t => t.url = none).getLast? <;> simp [hX]
      · -- segment with a URL: committed unchanged
        rw [fpRev.eq_def]
        dsimp only
        rw [if_neg hseg]
        have hres := ih rest (seg :: acc) (by simp at hn; omega)
          ((List.chain'_cons'.mp hchl).2)
          (by rw [List.chain'_cons']
              exact ⟨fun y hy => hA2 y hy seg (by simp), hacc⟩)
          (by intro pp hpp q hq
              simp only [List.head?_cons, Option.mem_def, Option.some.injEq] at hpp
              subst hpp
              exact (List.chain'_cons'.mp hchl).1 q hq)
          (by intro t ht
              cases acc with
              | nil => simp [List.dropLast_single] at ht
              | cons b acc' =>
                rw [List.dropLast_cons₂, List.mem_cons] at ht
                rcases ht with rfl | ht
                · exact hseg
                · exact hA3 t ht)
          (by intro pp hpp hppu
              simp only [List.head?_cons, Option.mem_def, Option.some.injEq] at hpp
              subst hpp
              exact absurd hppu hseg)
        refine ⟨hres.1, hres.2.1, ?_, ?_⟩
        · rw [hres.2.2.1]
          cases acc with
          | nil => simp
          | cons b acc' =>
            rw [List.getLast?_cons_cons]
            obtain ⟨w, hw⟩ : ∃ w, (b :: acc').getLast? = some w := by
              cases h : (b :: acc').getLast? with
              | none => rw [List.getLast?_eq_none_iff] at h; simp at h
              | some w => exact ⟨w, rfl⟩
            simp [hw]
        · rw [hres.2.2.2]
          cases hrl : rest.getLast? with
          | none =>
            rw [List.getLast?_eq_none_iff] at hrl
            subst hrl
            simp
          | some w =>
            have : (seg :: rest).getLast? = some w := by
              cases rest with
              | nil => simp at hrl
              | cons r rs => rw [List.getLast?_cons_cons]; exact hrl
            rw [this]
            simp

/-- The coverage predicate of the spec: the sequence is non-empty,
starts at time 0, ends at time `T`, and each segment's end equals the
next segment's start (contiguous coverage of `[0, T)`). -/
def coversSpec (T : ℚ) (l : List Seg) : Prop :=
  l.head?.map Seg.s = some 0 ∧ l.getLast?.map Seg.e = some T ∧
  List.Chain' (fun a b => a.e = b.s) l

/-- **C1 (amended)**: for every input covering `[0, T)` contiguously,
the output of `merge_empty_intervals` again covers `[0, T)`
contiguously, and every output segment except possibly the *first*
carries media; a `None` segment survives in the output only when the
first input segment itself had `None` media (the leading-gap edge case:
a `None` run at `t = 0` is never absorbed backward, even when later
segments are resolved). -/
theorem merge_empty_intervals_covers (T : ℚ) (x : List Seg) (hx : coversSpec T x) :
    coversSpec T (merge_empty_intervals x) ∧
    (∀ t ∈ (merge_empty_intervals x).tail, t.url ≠ none) ∧
    ((∃ t ∈ merge_empty_intervals x, t.url = none) → x.head?.map Seg.url = some none) := by
  obtain ⟨h0, hT, hch⟩ := hx
  obtain ⟨mchain, msome, mlast, mhead⟩ :=
    fpRev_master x.length x [] le_rfl hch (by simp) (by simp) (by simp) (by simp)
  have hytail : ∀ t ∈ ((fpRev [] x).reverse).tail, t.url ≠ none := by
    intro t ht
    rw [List.tail_reverse, List.mem_reverse] at ht
    exact msome t ht
  have hmerge : merge_empty_intervals x = (fpRev [] x).reverse := by
    unfold merge_empty_intervals
    rw [spRev_id_of_tail_some _ hytail, List.reverse_reverse]
  obtain ⟨a, hx0⟩ : ∃ a, x.head? = some a := by
    cases h : x.head? with
    | none => rw [h] at h0; simp at h0
    | some a => exact ⟨a, rfl⟩
  have ha0 : a.s = 0 := by rw [hx0] at h0; simpa using h0
  obtain ⟨c, hc, hcs, hcu⟩ :
      ∃ c, (fpRev [] x).getLast? = some c ∧ c.s = a.s ∧ c.url = a.url := by
    rw [hx0] at mlast
    cases h : (fpRev [] x).getLast? with
    | none => rw [h] at mlast; simp at mlast
    | some c =>
      rw [h] at mlast
      simp at mlast
      exact ⟨c, rfl, mlast.1, mlast.2⟩
  rw [hmerge]
  refine ⟨⟨?_, ?_, ?_⟩, hytail, ?_⟩
  · rw [List.head?_reverse, hc]
    simp [hcs, ha0]
  · rw [List.getLast?_reverse, mhead, hT]
    simp
  · rw [List.chain'_reverse]
    exact mchain
  · rintro ⟨t, htmem, htnone⟩
    cases hy : (fpRev [] x).reverse with
    | nil =>
      rw [hy] at htmem
      simp at htmem
    | cons hd tl =>
      have hhd : hd = c := by
        have := List.head?_reverse (fpRev [] x)
        rw [hy, hc] at this
        simpa using this
      rw [hy, List.mem_cons] at htmem
      rcases htmem with rfl | htmem
      · rw [hx0]
        have hau : a.url = none := by rw [← hcu, ← hhd]; exact htnone
        simp [hau]
      · exact absurd htnone (by simpa using hytail t (by rw [hy]; exact htmem))

/-- **C1 counterexample**: the input `[[0,1] ↦ None, [1,2] ↦ "a"]`
covers `[0, 2)` contiguously and is not entirely `None`, yet the output
of `merge_empty_intervals` still contains a `None` segment: a leading
`None` run is never absorbed into a later resolved segment, refuting
the claim that `None` entries survive only when the whole input is
`None`. -/
theorem merge_empty_intervals_keeps_leading_none :
    coversSpec 2 [⟨0, 1, none⟩, ⟨1, 2, some "a"⟩] ∧
    ¬ (∀ t ∈ ([⟨0, 1, none⟩, ⟨1, 2, some "a"⟩] : List Seg), t.url = none) ∧
    ∃ t ∈ merge_empty_intervals [⟨0, 1, none⟩, ⟨1, 2, some "a"⟩], t.url = none := by
  refine ⟨⟨rfl, rfl, by simp [List.chain'_cons]⟩, by decide, ?_⟩
  have h : merge_empty_intervals [⟨0, 1, none⟩, ⟨1, 2, some "a"⟩] =
      [⟨0, 1, none⟩, ⟨1, 2, some "a"⟩] := by
    simp [merge_empty_intervals, fpRev, spRev]
  rw [h]
  exact ⟨⟨0, 1, none⟩, by simp, rfl⟩

/-- Witness for `merge_empty_intervals_covers` at a concrete input:
`[[0,1] ↦ "a", [1,2] ↦ None, [2,3] ↦ "b"]` covers `[0, 3)`, and the
theorem's conclusions hold there. -/
theorem merge_empty_intervals_covers_witness :
    coversSpec 3 (merge_empty_intervals [⟨0, 1, some "a"⟩, ⟨1, 2, none⟩, ⟨2, 3, some "b"⟩]) ∧
    (∀ t ∈ (merge_empty_intervals [⟨0, 1, some "a"⟩, ⟨1, 2, none⟩, ⟨2, 3, some "b"⟩]).tail,
      t.url ≠ none) ∧
    ((∃ t ∈ merge_empty_intervals [⟨0, 1, some "a"⟩, ⟨1, 2, none⟩, ⟨2, 3, some "b"⟩],
        t.url = none) →
      ([⟨0, 1, some "a"⟩, ⟨1, 2, none⟩, ⟨2, 3, some "b"⟩] : List Seg).head?.map Seg.url =
        some none) :=
  merge_empty_intervals_covers 3 _ ⟨rfl, rfl, by simp [List.chain'_cons]⟩

/-- External effects of one `get_output_media` run
(`utility/render/render_engine.py`): whether the download + decode +
reframe of a given URL succeeds (the body of the per-segment `try`),
the duration of the audio track (`none` when the audio file is missing,
unreadable, or its duration is undeterminable — all of which leave the
composite's duration untouched), and whether the final
`write_videofile` call succeeds. -/
structure RenderEnv where
  decodeOk : String → Bool
  audioDuration : Option ℚ
  writeOk : Bool

/-- The `end` values (`set_end(t2)`) of the successfully processed
background clips, in order.  A segment is skipped when its URL is
falsy (`if not video_url: continue` — Python `None` or the empty
string) or when downloading/decoding it raises (the `except` handler
logs and continues). -/
def processedEnds (env : RenderEnv) (bg : List ((ℚ × ℚ) × Option String)) : List ℚ :=
  bg.filterMap fun seg =>
    match seg.2 with
    | none => none
    | some u => if u = "" then none else if env.decodeOk u then some seg.1.2 else none

/-- Duration reconciliation of `get_output_media`: with an audio track
of determinable duration `a`, the final duration is
`min(final_video.duration, final_audio.duration)` — except that a zero
visual duration is falsy in Python (`if final_video.duration`), in
which case the audio duration is taken; without audio (or with an
undeterminable audio duration) the visual duration stands. -/
def finalDuration (audio : Option ℚ) (maxEnd : ℚ) : ℚ :=
  match audio with
  | some a => if maxEnd ≠ 0 then min maxEnd a else a
  | none => maxEnd

/-- Duration of the written composite: `none` when no background clip
was successfully processed (`final_video = None`), otherwise the
reconciliation of the audio duration with
`max(vc.end for vc in visual_clips)`. -/
def compositeDuration (audio : Option ℚ) (ends : List ℚ) : Option ℚ :=
  match ends.max? with
  | none => none
  | some m => some (finalDuration audio m)

/-- `get_output_media(audio_file_path, timed_captions,
background_video_data, video_server)`, reduced to its observable
result: the output file name when a composite was built and written,
`None` otherwise.  Captions do not influence this result (caption
failures are skipped per caption, and the caption-based duration
fallback at the end of the function is dead code: the composite's
duration is always set from the visual clips first). -/
def get_output_media (env : RenderEnv) (bg : List ((ℚ × ℚ) × Option String)) :
    Option String :=
  match compositeDuration env.audioDuration (processedEnds env bg) with
  | none => none
  | some _ => if env.writeOk then some "rendered_video.mp4" else none

/-- **C2 (amended)**: with an audio track of determinable duration `a`
and a nonzero background timeline of maximal end `m`, the composite's
duration is `min(m, a)`: it is truncated to `a` when the background is
longer, but when the background is *shorter* than the audio the
composite ends at `m` — the last background segment is not held to
fill out to `a`. -/
theorem compositeDuration_min (env : RenderEnv) (bg : List ((ℚ × ℚ) × Option String))
    (a m : ℚ) (haud : env.audioDuration = some a)
    (hm : (processedEnds env bg).max? = some m) (hm0 : m ≠ 0) :
    compositeDuration env.audioDuration (processedEnds env bg) = some (min m a) ∧
    (a ≤ m → compositeDuration env.audioDuration (processedEnds env bg) = some a) ∧
    (m ≤ a → compositeDuration env.audioDuration (processedEnds env bg) = some m) := by
  have h : compositeDuration env.audioDuration (processedEnds env bg) = some (min m a) := by
    unfold compositeDuration finalDuration
    rw [hm, haud]
    simp [hm0]
  exact ⟨h, fun hle => by rw [h, min_eq_right hle], fun hle => by rw [h, min_eq_left hle]⟩

/-- Witness for `compositeDuration_min`: audio of duration 12 over a
background ending at 15 gives a composite of duration 12. -/
theorem compositeDuration_min_witness :
    compositeDuration (RenderEnv.mk (fun _ => true) (some 12) true).audioDuration
        (processedEnds (RenderEnv.mk (fun _ => true) (some 12) true)
          [((0, 15), some "u")]) = some (min 15 12) ∧
    ((12 : ℚ) ≤ 15 →
      compositeDuration (RenderEnv.mk (fun _ => true) (some 12) true).audioDuration
        (processedEnds (RenderEnv.mk (fun _ => true) (some 12) true)
          [((0, 15), some "u")]) = some 12) ∧
    ((15 : ℚ) ≤ 12 →
      compositeDuration (RenderEnv.mk (fun _ => true) (some 12) true).audioDuration
        (processedEnds (RenderEnv.mk (fun _ => true) (some 12) true)
          [((0, 15), some "u")]) = some 15) :=
  compositeDuration_min _ _ 12 15 rfl (by decide) (by decide)

/-- **C2 counterexample**: audio duration 12 is present and
determinable, the background covers `[0, 10)`, and the composite's
duration is 10, not 12 — the code takes `min(visual, audio)` and never
holds the last background frame to fill out to the audio duration. -/
theorem compositeDuration_not_audio :
    compositeDuration (RenderEnv.mk (fun _ => true) (some 12) true).audioDuration
        (processedEnds (RenderEnv.mk (fun _ => true) (some 12) true)
          [((0, 10), some "u")]) = some 10 ∧
    (10 : ℚ) ≠ 12 := by
  constructor
  · decide
  · norm_num

/-- **C4 (amended)**: when every background segment carries `None`
media, the render fails — no composite is built, nothing is written,
and the caller receives Python `None` (not a typed error value). -/
theorem get_output_media_all_absent (env : RenderEnv)
    (bg : List ((ℚ × ℚ) × Option String)) (h : ∀ seg ∈ bg, seg.2 = none) :
    get_output_media env bg = none := by
  have hends : processedEnds env bg = [] := by
    rw [processedEnds, List.filterMap_eq_nil_iff]
    intro seg hseg
    rw [h seg hseg]
  rw [get_output_media, hends]
  rfl

/-- Witness for `get_output_media_all_absent`: a two-segment
all-`Absent` timeline over `[0, 10)`, with a healthy environment
(decoding and writing would succeed), still yields `None`. -/
theorem get_output_media_all_absent_witness :
    get_output_media (RenderEnv.mk (fun _ => true) (some 10) true)
      [((0, 4), none), ((4, 10), none)] = none :=
  get_output_media_all_absent _ _ (by decide)

/-- **C4 counterexample**: the failure result for an all-`Absent`
timeline is the same value (`None`) the function returns for an
unrelated failure (here: the final write failing on a healthy
timeline), so the caller receives no typed `UnresolvableTimeline`
failure distinguishing the unresolvable-timeline case. -/
theorem get_output_media_failure_untyped :
    get_output_media (RenderEnv.mk (fun _ => true) none true) [((0, 10), none)] = none ∧
    get_output_media (RenderEnv.mk (fun _ => true) none false) [((0, 10), some "u")] = none ∧
    get_output_media (RenderEnv.mk (fun _ => true) none true) [((0, 10), none)] =
      get_output_media (RenderEnv.mk (fun _ => true) none false) [((0, 10), some "u")] := by
  refine ⟨by decide, by decide, by decide⟩

/-- **C6**: a single failed background segment (missing URL, or a
download/decode error) is skipped: the render's result is exactly the
result for the input without that segment, and as long as some other
segment decodes successfully (and the final write succeeds) a
composite file is produced. -/
theorem get_output_media_skips_failed_segment (env : RenderEnv)
    (pre post : List ((ℚ × ℚ) × Option String)) (bad : (ℚ × ℚ) × Option String)
    (hbad : bad.2 = none ∨ ∃ u, bad.2 = some u ∧ (u = "" ∨ env.decodeOk u = false))
    (hok : ∃ s ∈ pre ++ post, ∃ u, s.2 = some u ∧ u ≠ "" ∧ env.decodeOk u = true)
    (hw : env.writeOk = true) :
    get_output_media env (pre ++ bad :: post) = get_output_media env (pre ++ post) ∧
    get_output_media env (pre ++ bad :: post) = some "rendered_video.mp4" := by
  have hbadnone : (fun seg : (ℚ × ℚ) × Option String =>
      match seg.2 with
      | none => none
      | some u => if u = "" then none
                  else if env.decodeOk u then some seg.1.2 else none) bad = none := by
    rcases hbad with hb | ⟨u, hb, hu⟩
    · simp only [hb]
    · rcases hu with hu | hu
      · simp only [hb, hu]
        simp
      · simp only [hb]
        rcases eq_or_ne u "" with h0 | h0
        · simp [h0]
        · simp [h0, hu]
  have hsame : processedEnds env (pre ++ bad :: post) = processedEnds env (pre ++ post) := by
    unfold processedEnds
    rw [show bad :: post = [bad] ++ post from rfl, List.filterMap_append,
      List.filterMap_append, List.filterMap_append]
    simp [List.filterMap, hbadnone]
  have hne : processedEnds env (pre ++ post) ≠ [] := by
    obtain ⟨s, hs, u, hsu, hu0, hdec⟩ := hok
    intro hnil
    rw [processedEnds, List.filterMap_eq_nil_iff] at hnil
    have := hnil s hs
    rw [hsu] at this
    simp [hu0, hdec] at this
  obtain ⟨m, hm⟩ : ∃ m, (processedEnds env (pre ++ post)).max? = some m := by
    cases h : (processedEnds env (pre ++ post)).max? with
    | none => exact absurd (List.max?_eq_none_iff.mp h) hne
    | some m => exact ⟨m, rfl⟩
  constructor
  · rw [get_output_media, get_output_media, hsame]
  · rw [get_output_media, hsame, compositeDuration, hm]
    simp [hw]

/-- Witness for `get_output_media_skips_failed_segment`: one
undecodable segment among five yields the same composite as the four
healthy segments alone. -/
theorem get_output_media_skips_failed_segment_witness :
    get_output_media (RenderEnv.mk (fun u => u ≠ "bad") (some 12) true)
        ([((0, 2), some "a"), ((2, 4), some "b")] ++
          ((4, 6), some "bad") :: [((6, 8), some "c"), ((8, 10), some "d")]) =
      get_output_media (RenderEnv.mk (fun u => u ≠ "bad") (some 12) true)
        ([((0, 2), some "a"), ((2, 4), some "b")] ++
          [((6, 8), some "c"), ((8, 10), some "d")]) ∧
    get_output_media (RenderEnv.mk (fun u => u ≠ "bad") (some 12) true)
        ([((0, 2), some "a"), ((2, 4), some "b")] ++
          ((4, 6), some "bad") :: [((6, 8), some "c"), ((8, 10), some "d")]) =
      some "rendered_video.mp4" :=
  get_output_media_skips_failed_segment _ _ _ _
    (Or.inr ⟨"bad", rfl, Or.inr (by decide)⟩)
    ⟨((0, 2), some "a"), by simp, "a", rfl, by decide, by decide⟩
    rfl

/-- A detector bounding box in `xyxy` form, with rational coordinates
standing for the detector's floating-point outputs. -/
structure BBox where
  x1 : ℚ
  y1 : ℚ
  x2 : ℚ
  y2 : ℚ
deriving DecidableEq

/-- `(boxes[:, 2] - boxes[:, 0]) * (boxes[:, 3] - boxes[:, 1])`. -/
def BBox.area (b : BBox) : ℚ := (b.x2 - b.x1) * (b.y2 - b.y1)

/-- `boxes[np.argmax(areas)]`: the first box of maximal area among the
frame's detections, `none` when the detector returned no boxes. -/
def largestBox : List BBox → Option BBox
  | [] => none
  | b :: rest => some (rest.foldl (fun acc c => if c.area > acc.area then c else acc) b)

/-- The stability-anchor update of `yolo_reframe_clip` (lines 84-92):
`largest_object_bbox` is replaced by the frame's largest detection only
when the latter's area is strictly larger (or when no anchor exists
yet); with no detections the anchor is kept.  The box subsequently used
for cropping (`bbox_to_use`) is exactly this updated anchor: when the
updated anchor is `none`, the frame had no detections either. -/
def updateAnchor (anchor : Option BBox) (boxes : List BBox) : Option BBox :=
  match largestBox boxes with
  | none => anchor
  | some c =>
    match anchor with
    | none => some c
    | some a => if c.area > a.area then some c else some a

/-- `target_aspect = 9/16`.  The Python float `9/16 = 0.5625` is
binary-exact, so the rational value is the same number. -/
def targetAspect : ℚ := 9 / 16

/-- `target_height = 1920`. -/
def targetHeight : ℕ := 1920

/-- `target_width = int(target_height * target_aspect)`. -/
def targetWidth : ℕ := (⌊(targetHeight : ℚ) * targetAspect⌋).toNat

theorem targetWidth_eq : targetWidth = 1080 := by
  have h : (targetHeight : ℚ) * targetAspect = 1080 := by
    norm_num [targetHeight, targetAspect]
  rw [targetWidth, h]
  decide

/-- The anchor after one frame of `process_frame`: detection (and hence
the anchor update) runs only when the frame's aspect differs from the
target by more than the `0.01` tolerance. -/
def processFrameAnchor (w h : ℕ) (anchor : Option BBox) (boxes : List BBox) :
    Option BBox :=
  if |((w : ℚ) / h) - targetAspect| > 1 / 100 then updateAnchor anchor boxes else anchor

/-- The anchor state threaded through a segment's frame sequence
(`largest_object_bbox` is `nonlocal` state of one
`yolo_reframe_clip` invocation). -/
def anchorFold (w h : ℕ) (frames : List (List BBox)) (anchor : Option BBox) :
    Option BBox :=
  frames.foldl (fun an bs => processFrameAnchor w h an bs) anchor

/-- An integer crop window `frame[y1:y2, x1:x2]`. -/
structure Window where
  wx1 : ℤ
  wy1 : ℤ
  wx2 : ℤ
  wy2 : ℤ
deriving DecidableEq

/-- The detector-guided crop window of `process_frame` (lines 97-129),
after `map(int, [x1, y1, x2, y2])`.  All four rational values are
nonnegative, so Python's truncating `int()` is the floor.  The padding
factor `1.2` is modelled as the rational `12/10` (the Python float is
infinitesimally below it; every bound proved below is independent of
that difference). -/
def yoloWindow (w h : ℕ) (b : BBox) : Window :=
  let cx := (b.x1 + b.x2) / 2
  let cy := (b.y1 + b.y2) / 2
  if (w : ℚ) / h > targetAspect then
    let minW := (h : ℚ) * targetAspect
    let newW := min (w : ℚ) (minW * (12 / 10))
    let x1 := max 0 (cx - newW / 2)
    let x2 := min (w : ℚ) (x1 + newW)
    let x1' := max 0 (x2 - newW)
    ⟨⌊x1'⌋, 0, ⌊x2⌋, (h : ℤ)⟩
  else
    let minH := (w : ℚ) / targetAspect
    let newH := min (h : ℚ) (minH * (12 / 10))
    let y1 := max 0 (cy - newH / 2)
    let y2 := min (h : ℚ) (y1 + newH)
    let y1' := max 0 (y2 - newH)
    ⟨0, ⌊y1'⌋, (w : ℤ), ⌊y2⌋⟩

/-- The center-crop fallback window for landscape frames (lines
138-142): `new_w = int(h * target_aspect)`, window
`frame[:, x1 : x1 + new_w]` with `x1 = max(0, w//2 - new_w//2)`
(natural-number subtraction is exactly that `max(0, ·)`). -/
def centerWindow (w h : ℕ) : Window :=
  let newW := (⌊(h : ℚ) * targetAspect⌋).toNat
  let x1 := w / 2 - newW / 2
  ⟨(x1 : ℤ), 0, ((x1 + newW : ℕ) : ℤ), (h : ℤ)⟩

/-- The crop window `process_frame` actually applies to a frame of
dimensions `w × h` given the current anchor and the frame's
detections — the detector-guided attempt: the aspect gate must pass, a
usable box must exist, and the integer window must pass the
`y1 < y2 and x1 < x2` validity guard. -/
def yoloTry (w h : ℕ) (anchor : Option BBox) (boxes : List BBox) : Option Window :=
  if |((w : ℚ) / h) - targetAspect| > 1 / 100 then
    match updateAnchor anchor boxes with
    | some b =>
      let r := yoloWindow w h b
      if r.wy1 < r.wy2 ∧ r.wx1 < r.wx2 then some r else none
    | none => none
  else none

/-- See `yoloTry`: the detector-guided window when it exists, else the
center-crop fallback for frames wider than the target aspect, else no
crop. -/
def appliedCrop (w h : ℕ) (anchor : Option BBox) (boxes : List BBox) :
    Option Window :=
  match yoloTry w h anchor boxes with
  | some r => some r
  | none => if (w : ℚ) / h > targetAspect then some (centerWindow w h) else none

/-- The frame's dimensions after crop + resize but before the final
padding check: both crop paths `cv2.resize` to exactly
`(target_width, target_height)`; the no-crop path resizes to
`(int(target_height * current_aspect), target_height)`. -/
def prePadDims (w h : ℕ) (anchor : Option BBox) (boxes : List BBox) : ℕ × ℕ :=
  match appliedCrop w h anchor boxes with
  | some _ => (targetWidth, targetHeight)
  | none => ((⌊(targetHeight : ℚ) * ((w : ℚ) / h)⌋).toNat, targetHeight)

/-- The final size check of `process_frame` (lines 148-162): a frame
that is not exactly target-sized is center-pasted onto a black
target-sized canvas when the paste fits (`paste_x`/`paste_y` by
Python's flooring `//`), and returned at its wrong size otherwise. -/
def padToTarget (fw fh : ℕ) : ℕ × ℕ :=
  if fh = targetHeight ∧ fw = targetWidth then (fw, fh)
  else
    let px : ℤ := ((targetWidth : ℤ) - fw).fdiv 2
    let py : ℤ := ((targetHeight : ℤ) - fh).fdiv 2
    if 0 ≤ py ∧ py + fh ≤ (targetHeight : ℤ) ∧ 0 ≤ px ∧ px + fw ≤ (targetWidth : ℤ)
    then (targetWidth, targetHeight) else (fw, fh)

/-- Dimensions of the frame emitted by `process_frame`. -/
def processFrameDims (w h : ℕ) (anchor : Option BBox) (boxes : List BBox) : ℕ × ℕ :=
  padToTarget (prePadDims w h anchor boxes).1 (prePadDims w h anchor boxes).2

/-- Dimension map of the video library's `clip.resize(height=th)`:
uniform scaling to height `th`, width truncated to an integer. -/
def resizeHeightDims (w h : ℕ) : ℕ × ℕ := ((targetHeight * w) / h, targetHeight)

/-- Per-frame output dimensions of `yolo_reframe_clip`: when the YOLO
model failed to load, the whole clip is handed to
`clip.resize(height=target_height)` (lines 59-62) and no per-frame
processing happens; otherwise every frame runs through
`process_frame`. -/
def reframeDims (yoloAvailable : Bool) (anchor : Option BBox) (boxes : List BBox)
    (w h : ℕ) : ℕ × ℕ :=
  if yoloAvailable then processFrameDims w h anchor boxes else resizeHeightDims w h

/-- With no anchor and no detections, the detector-guided attempt never
produces a window, whatever the frame size. -/
theorem yoloTry_no_detection (w h : ℕ) (anchor : Option BBox)
    (hual : updateAnchor anchor [] = none) : yoloTry w h anchor [] = none := by
  unfold yoloTry
  rw [hual]
  split
  · rfl
  · rfl

/-- **C9 counterexample**: on a 1920×1080 source frame, reframing with
the locator unavailable yields a 3413×1920 frame (plain resize to
height 1920), while reframing with the locator present but having
observed no box yields 1080×1920 (center crop): the two degradation
modes differ, refuting "exactly as if a locator were present but had
never observed a box" (and refuting center-cropping). -/
theorem reframe_no_detector_not_center_crop :
    reframeDims false none [] 1920 1080 = (3413, 1920) ∧
    reframeDims true none [] 1920 1080 = (1080, 1920) ∧
    reframeDims false none [] 1920 1080 ≠ reframeDims true none [] 1920 1080 := by
  have h1 : reframeDims false none [] 1920 1080 = (3413, 1920) := by decide
  have hac : appliedCrop 1920 1080 none [] = some (centerWindow 1920 1080) := by
    unfold appliedCrop
    rw [yoloTry_no_detection 1920 1080 none rfl]
    show (if ((1920 : ℕ) : ℚ) / ((1080 : ℕ) : ℚ) > targetAspect
      then some (centerWindow 1920 1080) else none) = some (centerWindow 1920 1080)
    rw [if_pos (by rw [targetAspect]; norm_num)]
  have h2 : reframeDims true none [] 1920 1080 = (1080, 1920) := by
    show processFrameDims 1920 1080 none [] = (1080, 1920)
    unfold processFrameDims prePadDims
    rw [hac]
    unfold padToTarget
    rw [if_pos ⟨rfl, rfl⟩, targetWidth_eq]
    rfl
  refine ⟨h1, h2, ?_⟩
  rw [h1, h2]
  decide

/-- **C9 (amended)**: when the YOLO model is unavailable, reframing
does not fail but it also does not center-crop: the clip is handed to
a plain aspect-preserving resize to the target height, so the output
width is `int(1920·w/h)`; only a source already at the 9:16 target
aspect (here `w = 9k, h = 16k`) comes out at the target 1080×1920. -/
theorem reframe_no_detector_resizes (anchor : Option BBox) (boxes : List BBox)
    (w h k : ℕ) (hk : 1 ≤ k) :
    reframeDims false anchor boxes w h = ((targetHeight * w) / h, targetHeight) ∧
    reframeDims false anchor boxes (9 * k) (16 * k) = (1080, 1920) := by
  refine ⟨rfl, ?_⟩
  show resizeHeightDims (9 * k) (16 * k) = (1080, 1920)
  unfold resizeHeightDims targetHeight
  have h1 : 1920 * (9 * k) = 1080 * (16 * k) := by ring
  rw [h1, Nat.mul_div_cancel _ (by omega)]

/-- Witness for `reframe_no_detector_resizes` at `k = 1` (a 9×16
source). -/
theorem reframe_no_detector_resizes_witness :
    reframeDims false none [] 9 16 = ((targetHeight * 9) / 16, targetHeight) ∧
    reframeDims false none [] (9 * 1) (16 * 1) = (1080, 1920) :=
  reframe_no_detector_resizes none [] 9 16 1 (by decide)

/-- **C3 counterexample**: with the salient-object locator unavailable
(one of the locator states quantified over by the claim), a 640×480
source frame comes out as 2560×1920, not as the target 1080×1920: the
no-model path resizes by height only and never pads or crops to the
target width. -/
theorem reframe_unavailable_wrong_dims :
    reframeDims false none [] 640 480 = (2560, 1920) ∧
    ((2560 : ℕ), (1920 : ℕ)) ≠ ((1080 : ℕ), (1920 : ℕ)) :=
  ⟨by decide, by decide⟩

/-- **C3 (amended)**: with the detector loaded, `process_frame` emits a
1080×1920 frame for every source size `w × h` (`w, h ≥ 1`) and every
anchor/detection state: both crop paths resize to exactly the target,
and the no-crop path (aspect at most the target's) resizes to a width
of at most 1080 and is then centered onto a black 1080×1920 canvas. -/
theorem reframe_with_detector_exact_dims (w h : ℕ) (anchor : Option BBox)
    (boxes : List BBox) (hw : 1 ≤ w) (hh : 1 ≤ h) :
    reframeDims true anchor boxes w h = (1080, 1920) := by
  show processFrameDims w h anchor boxes = (1080, 1920)
  unfold processFrameDims
  cases hac : appliedCrop w h anchor boxes with
  | some r =>
    unfold prePadDims
    rw [hac]
    show padToTarget targetWidth targetHeight = (1080, 1920)
    unfold padToTarget
    rw [if_pos ⟨rfl, rfl⟩, targetWidth_eq]
    rfl
  | none =>
    have hasp : ¬ ((w : ℚ) / h > targetAspect) := by
      intro hgt
      unfold appliedCrop at hac
      cases hyt : yoloTry w h anchor boxes with
      | some r => rw [hyt] at hac; exact absurd hac (by simp)
      | none =>
        rw [hyt] at hac
        dsimp only at hac
        rw [if_pos hgt] at hac
        exact absurd hac (by simp)
    unfold prePadDims
    rw [hac]
    have h1 : (w : ℚ) / h ≤ targetAspect := not_lt.mp hasp
    have h2 : (targetHeight : ℚ) * ((w : ℚ) / h) ≤ 1080 := by
      rw [targetAspect] at h1
      calc (targetHeight : ℚ) * ((w : ℚ) / h) ≤ (targetHeight : ℚ) * (9 / 16) := by
            exact mul_le_mul_of_nonneg_left h1 (by norm_num [targetHeight])
        _ = 1080 := by norm_num [targetHeight]
    have h3 : ⌊(targetHeight : ℚ) * ((w : ℚ) / h)⌋ ≤ 1080 := by
      have h4 := Int.floor_le_floor h2
      rwa [show ((1080 : ℚ)) = ((1080 : ℤ) : ℚ) by norm_num, Int.floor_intCast] at h4
    have hfw : (⌊(targetHeight : ℚ) * ((w : ℚ) / h)⌋).toNat ≤ 1080 :=
      le_trans (Int.toNat_le_toNat h3) (by decide)
    show padToTarget (⌊(targetHeight : ℚ) * ((w : ℚ) / h)⌋).toNat targetHeight =
      (1080, 1920)
    unfold padToTarget
    by_cases hfe : (⌊(targetHeight : ℚ) * ((w : ℚ) / h)⌋).toNat = targetWidth
    · rw [if_pos ⟨rfl, hfe⟩, hfe, targetWidth_eq]
      rfl
    · rw [if_neg (by simp [hfe])]
      rw [targetWidth_eq] at hfe ⊢
      dsimp only
      split
      · rfl
      · exfalso
        rename_i hcond
        apply hcond
        refine ⟨?_, ?_, ?_, ?_⟩
        · rw [sub_self, Int.zero_fdiv]
        · rw [sub_self, Int.zero_fdiv]
          simp
        · exact Int.fdiv_nonneg (by omega) (by norm_num)
        · rw [Int.fdiv_eq_ediv _ (by norm_num)]
          omega

/-- Witness for `reframe_with_detector_exact_dims`: a 1280×720 source
frame with no detections comes out at exactly 1080×1920. -/
theorem reframe_with_detector_exact_dims_witness :
    reframeDims true none [] 1280 720 = (1080, 1920) :=
  reframe_with_detector_exact_dims 1280 720 none [] (by decide) (by decide)

/-- The detector-guided window never leaves the frame: its corners are
nonnegative and bounded by the frame dimensions, in both the landscape
and the portrait branch. -/
theorem yoloWindow_bounds (w h : ℕ) (b : BBox) :
    0 ≤ (yoloWindow w h b).wx1 ∧ (yoloWindow w h b).wx2 ≤ (w : ℤ) ∧
    0 ≤ (yoloWindow w h b).wy1 ∧ (yoloWindow w h b).wy2 ≤ (h : ℤ) := by
  unfold yoloWindow
  split
  · dsimp only
    refine ⟨?_, ?_, le_refl _, le_refl _⟩
    · exact Int.floor_nonneg.mpr (le_max_left 0 _)
    · calc ⌊min ((w : ℚ)) (max 0 ((b.x1 + b.x2) / 2 -
            min ((w : ℚ)) ((h : ℚ) * targetAspect * (12 / 10)) / 2) +
            min ((w : ℚ)) ((h : ℚ) * targetAspect * (12 / 10)))⌋ ≤ ⌊(w : ℚ)⌋ :=
            Int.floor_le_floor (min_le_left _ _)
        _ = (w : ℤ) := Int.floor_natCast w
  · dsimp only
    refine ⟨le_refl _, le_refl _, ?_, ?_⟩
    · exact Int.floor_nonneg.mpr (le_max_left 0 _)
    · calc ⌊min ((h : ℚ)) (max 0 ((b.y1 + b.y2) / 2 -
            min ((h : ℚ)) ((w : ℚ) / targetAspect * (12 / 10)) / 2) +
            min ((h : ℚ)) ((w : ℚ) / targetAspect * (12 / 10)))⌋ ≤ ⌊(h : ℚ)⌋ :=
            Int.floor_le_floor (min_le_left _ _)
        _ = (h : ℤ) := Int.floor_natCast h

/-- The center-crop fallback window stays inside a frame that is wider
than the target aspect; its width `int(h * 9/16)` is positive exactly
when `h ≥ 2`. -/
theorem centerWindow_bounds (w h : ℕ) (hasp : (w : ℚ) / h > targetAspect) :
    0 ≤ (centerWindow w h).wx1 ∧ (centerWindow w h).wx1 ≤ (centerWindow w h).wx2 ∧
    (centerWindow w h).wx2 ≤ (w : ℤ) ∧ (centerWindow w h).wy1 = 0 ∧
    (centerWindow w h).wy2 = (h : ℤ) ∧
    (2 ≤ h → (centerWindow w h).wx1 < (centerWindow w h).wx2) := by
  have hh : h ≠ 0 := by
    intro h0
    rw [h0] at hasp
    rw [targetAspect] at hasp
    norm_num at hasp
  have hhq : (0 : ℚ) < (h : ℚ) := by positivity
  have hwq : targetAspect * (h : ℚ) < (w : ℚ) := by
    rw [gt_iff_lt, lt_div_iff hhq] at hasp
    exact hasp
  have hflnn : 0 ≤ ⌊(h : ℚ) * targetAspect⌋ := by
    rw [Int.floor_nonneg]
    rw [targetAspect]
    positivity
  have hnewW : ((⌊(h : ℚ) * targetAspect⌋).toNat : ℚ) ≤ (h : ℚ) * targetAspect := by
    have hcast : ((⌊(h : ℚ) * targetAspect⌋).toNat : ℤ) = ⌊(h : ℚ) * targetAspect⌋ :=
      Int.toNat_of_nonneg hflnn
    calc ((⌊(h : ℚ) * targetAspect⌋).toNat : ℚ)
        = ((((⌊(h : ℚ) * targetAspect⌋).toNat : ℤ)) : ℚ) := by exact_mod_cast rfl
      _ = ((⌊(h : ℚ) * targetAspect⌋ : ℤ) : ℚ) := by rw [hcast]
      _ ≤ (h : ℚ) * targetAspect := Int.floor_le _
  have hlt : (⌊(h : ℚ) * targetAspect⌋).toNat < w := by
    have : ((⌊(h : ℚ) * targetAspect⌋).toNat : ℚ) < (w : ℚ) :=
      lt_of_le_of_lt hnewW (by rw [mul_comm]; exact hwq)
    exact_mod_cast this
  unfold centerWindow
  dsimp only
  refine ⟨by positivity, by omega, by omega, rfl, rfl, ?_⟩
  intro h2
  have h1 : 1 ≤ (⌊(h : ℚ) * targetAspect⌋).toNat := by
    have : (1 : ℤ) ≤ ⌊(h : ℚ) * targetAspect⌋ := by
      rw [Int.le_floor]
      rw [targetAspect]
      have : (2 : ℚ) ≤ (h : ℚ) := by exact_mod_cast h2
      nlinarith
    omega
  omega

/-- **C7 (amended)**: every crop window `process_frame` applies
satisfies `0 ≤ x1 ≤ x2 ≤ w` and `0 ≤ y1 ≤ y2 ≤ h` — shifted back
inside the frame, never out of range — and the inequalities are strict
whenever `h ≥ 2`: a detector-guided window is strict by the explicit
`y1 < y2 and x1 < x2` guard, and the center-crop fallback is strict
because `int(h * 9/16) ≥ 1`.  (For the degenerate height `h = 1` the
fallback window is empty: `x1 = x2`.) -/
theorem appliedCrop_window_bounds (w h : ℕ) (anchor : Option BBox)
    (boxes : List BBox) (r : Window) (hr : appliedCrop w h anchor boxes = some r) :
    (0 ≤ r.wx1 ∧ r.wx1 ≤ r.wx2 ∧ r.wx2 ≤ (w : ℤ) ∧
     0 ≤ r.wy1 ∧ r.wy1 ≤ r.wy2 ∧ r.wy2 ≤ (h : ℤ)) ∧
    (2 ≤ h → r.wx1 < r.wx2 ∧ r.wy1 < r.wy2) := by
  unfold appliedCrop at hr
  cases hyt : yoloTry w h anchor boxes with
  | some r' =>
    rw [hyt] at hr
    have hrr : r = r' := by
      dsimp only at hr
      exact (Option.some.injEq _ _ ▸ hr).symm
    subst hrr
    -- characterize the successful detector attempt
    unfold yoloTry at hyt
    by_cases hgate : |((w : ℚ) / h) - targetAspect| > 1 / 100
    · rw [if_pos hgate] at hyt
      cases hua : updateAnchor anchor boxes with
      | none => rw [hua] at hyt; exact absurd hyt (by simp)
      | some b =>
        rw [hua] at hyt
        dsimp only at hyt
        by_cases hg : (yoloWindow w h b).wy1 < (yoloWindow w h b).wy2 ∧
            (yoloWindow w h b).wx1 < (yoloWindow w h b).wx2
        · rw [if_pos hg] at hyt
          have hrw : r = yoloWindow w h b := by
            exact ((Option.some.injEq _ _ ▸ hyt)).symm
          subst hrw
          obtain ⟨b1, b2, b3, b4⟩ := yoloWindow_bounds w h b
          exact ⟨⟨b1, le_of_lt hg.2, b2, b3, le_of_lt hg.1, b4⟩,
            fun _ => ⟨hg.2, hg.1⟩⟩
        · rw [if_neg hg] at hyt
          exact absurd hyt (by simp)
    · rw [if_neg hgate] at hyt
      exact absurd hyt (by simp)
  | none =>
    rw [hyt] at hr
    dsimp only at hr
    by_cases hasp : (w : ℚ) / h > targetAspect
    · rw [if_pos hasp] at hr
      have hrw : r = centerWindow w h := by
        exact ((Option.some.injEq _ _ ▸ hr)).symm
      subst hrw
      obtain ⟨c1, c2, c3, c4, c5, c6⟩ := centerWindow_bounds w h hasp
      have hh : h ≠ 0 := by
        intro h0
        rw [h0] at hasp
        rw [targetAspect] at hasp
        norm_num at hasp
      refine ⟨⟨c1, c2, c3, by rw [c4], by rw [c4, c5]; exact_mod_cast Nat.zero_le h,
        by rw [c5]⟩, fun h2 => ⟨c6 h2, ?_⟩⟩
      rw [c4, c5]
      exact_mod_cast Nat.pos_of_ne_zero hh
    · rw [if_neg hasp] at hr
      exact absurd hr (by simp)

/-- **C7 counterexample**: on a 2×1 frame with no detections (aspect
2 > 9/16, so the landscape center-crop fallback applies) the computed
crop window is `x1 = 1, x2 = 1 + int(1 * 9/16) = 1`: it fails the
claimed strict bound `x1 < x2`, and the resulting crop
`frame[:, 1:1]` is empty. -/
theorem appliedCrop_degenerate :
    appliedCrop 2 1 none [] = some (Window.mk 1 0 1 1) ∧
    ¬ ((Window.mk 1 0 1 1).wx1 < (Window.mk 1 0 1 1).wx2) := by
  constructor
  · unfold appliedCrop
    rw [yoloTry_no_detection 2 1 none rfl]
    show (if ((2 : ℕ) : ℚ) / ((1 : ℕ) : ℚ) > targetAspect
      then some (centerWindow 2 1) else none) = some (Window.mk 1 0 1 1)
    rw [if_pos (by rw [targetAspect]; norm_num)]
    have : centerWindow 2 1 = Window.mk 1 0 1 1 := by
      unfold centerWindow
      norm_num [targetAspect]
    rw [this]
  · decide

/-- Witness for `appliedCrop_window_bounds`: the fallback window on a
1920×1080 frame with no detections is `[657, 1264) × [0, 1080)`, inside
bounds and strict. -/
theorem appliedCrop_window_bounds_witness :
    (0 ≤ (Window.mk 657 0 1264 1080).wx1 ∧
     (Window.mk 657 0 1264 1080).wx1 ≤ (Window.mk 657 0 1264 1080).wx2 ∧
     (Window.mk 657 0 1264 1080).wx2 ≤ ((1920 : ℕ) : ℤ) ∧
     0 ≤ (Window.mk 657 0 1264 1080).wy1 ∧
     (Window.mk 657 0 1264 1080).wy1 ≤ (Window.mk 657 0 1264 1080).wy2 ∧
     (Window.mk 657 0 1264 1080).wy2 ≤ ((1080 : ℕ) : ℤ)) ∧
    (2 ≤ 1080 → (Window.mk 657 0 1264 1080).wx1 < (Window.mk 657 0 1264 1080).wx2 ∧
      (Window.mk 657 0 1264 1080).wy1 < (Window.mk 657 0 1264 1080).wy2) :=
  appliedCrop_window_bounds 1920 1080 none [] (Window.mk 657 0 1264 1080) (by
    unfold appliedCrop
    rw [yoloTry_no_detection 1920 1080 none rfl]
    show (if ((1920 : ℕ) : ℚ) / ((1080 : ℕ) : ℚ) > targetAspect
      then some (centerWindow 1920 1080) else none) = some (Window.mk 657 0 1264 1080)
    rw [if_pos (by rw [targetAspect]; norm_num)]
    have : centerWindow 1920 1080 = Window.mk 657 0 1264 1080 := by
      unfold centerWindow
      norm_num [targetAspect]
      decide
    rw [this])

/-- One anchor update can only keep the anchor or replace it by a box
of strictly larger area. -/
theorem updateAnchor_step (a : BBox) (boxes : List BBox) :
    ∃ b, updateAnchor (some a) boxes = some b ∧ a.area ≤ b.area ∧
      (b ≠ a → a.area < b.area) := by
  unfold updateAnchor
  cases largestBox boxes with
  | none => exact ⟨a, rfl, le_refl _, fun hne => absurd rfl hne⟩
  | some c =>
    dsimp only
    by_cases hc : c.area > a.area
    · rw [if_pos hc]
      exact ⟨c, rfl, le_of_lt hc, fun _ => hc⟩
    · rw [if_neg hc]
      exact ⟨a, rfl, le_refl _, fun hne => absurd rfl hne⟩

/-- One `process_frame` anchor step (detection gated on the aspect
check) can only keep the anchor or enlarge it. -/
theorem processFrameAnchor_step (w h : ℕ) (a : BBox) (boxes : List BBox) :
    ∃ b, processFrameAnchor w h (some a) boxes = some b ∧ a.area ≤ b.area ∧
      (b ≠ a → a.area < b.area) := by
  unfold processFrameAnchor
  split
  · exact updateAnchor_step a boxes
  · exact ⟨a, rfl, le_refl _, fun hne => absurd rfl hne⟩

/-- **C8**: within one segment's reframing, the stability anchor is
replaced only by a strictly larger box — a single frame step keeps the
anchor or strictly increases its area, and across any sequence of
frames the anchor's area is non-decreasing (it never reverts to a
smaller box). -/
theorem anchor_area_monotone (w h : ℕ) (frames : List (List BBox))
    (boxes : List BBox) (anchor : Option BBox) (a : BBox) (ha : anchor = some a) :
    (∃ b, processFrameAnchor w h anchor boxes = some b ∧ a.area ≤ b.area ∧
      (b ≠ a → a.area < b.area)) ∧
    (∃ c, anchorFold w h frames anchor = some c ∧ a.area ≤ c.area) := by
  subst ha
  refine ⟨processFrameAnchor_step w h a boxes, ?_⟩
  induction frames generalizing a with
  | nil => exact ⟨a, rfl, le_refl _⟩
  | cons f fs ih =>
    obtain ⟨b, hb, hab, _⟩ := processFrameAnchor_step w h a f
    obtain ⟨c, hc, hbc⟩ := ih b
    refine ⟨c, ?_, le_trans hab hbc⟩
    unfold anchorFold
    rw [List.foldl_cons, hb]
    exact hc

/-- Witness for `anchor_area_monotone`: starting from a unit-square
anchor, a frame sequence containing a larger and then a smaller box
ends with the larger box's area retained. -/
theorem anchor_area_monotone_witness :
    (∃ b, processFrameAnchor 1920 1080 (some (BBox.mk 0 0 1 1)) [BBox.mk 0 0 2 2] =
        some b ∧ (BBox.mk 0 0 1 1).area ≤ b.area ∧
        (b ≠ BBox.mk 0 0 1 1 → (BBox.mk 0 0 1 1).area < b.area)) ∧
    (∃ c, anchorFold 1920 1080 [[BBox.mk 0 0 2 2], [BBox.mk 0 0 1 1]]
        (some (BBox.mk 0 0 1 1)) = some c ∧ (BBox.mk 0 0 1 1).area ≤ c.area) :=
  anchor_area_monotone 1920 1080 [[BBox.mk 0 0 2 2], [BBox.mk 0 0 1 1]]
    [BBox.mk 0 0 2 2] (some (BBox.mk 0 0 1 1)) (BBox.mk 0 0 1 1) rfl

/-- One candidate file of a Pexels search response (an entry of a
video's `video_files` list): its pixel dimensions and download link. -/
structure VideoFile where
  width : ℕ
  height : ℕ
  link : String
deriving DecidableEq

/-- `link.split('.hd')[0]`: the deduplication key recorded in
`used_links` and checked in `getBestVideo`. -/
def linkBase (l : String) : String := (l.splitOn ".hd").headI

/-- `getBestVideo(query, orientation_landscape=True, used_vids)` from
`utility/video/background_video_generator.py`, over the flattened
iteration order of its network response (outer loop: videos sorted by
closeness of duration to 15 s; inner loop: each video's files — this
order is the oracle's `cands` list): the first file whose link base is
not yet used and whose dimensions are exactly 1920×1080 is returned. -/
def getBestVideo (cands : List VideoFile) (used : List String) : Option String :=
  match cands with
  | [] => none
  | f :: rest =>
    if linkBase f.link ∈ used then getBestVideo rest used
    else if f.width = 1920 ∧ f.height = 1080 then some f.link
    else getBestVideo rest used

/-- Python truthiness of the `kayla_image_url` argument
(`if index == 0 and kayla_image_url:`): `None` and `""` are falsy. -/
def truthy : Option String → Bool
  | none => false
  | some s => s ≠ ""

/-- The per-segment loop of `generate_video_url` for
`video_server="pexel"`: `idx` is the enumeration index, `used` the
accumulated `used_links`, `cands` maps each query string to its
flattened Pexels candidate list.  The first segment takes the Kayla
image when one is (truthily) given, without touching `used`; otherwise
a segment with a nonempty keyword searches Pexels, falls back to the
fixed query `"news background"`, and records the chosen link's base in
`used`; a segment with an empty keyword gets `None`. -/
def genLoop (cands : String → List VideoFile) (kayla : Option String) :
    ℕ → List String → List ((ℚ × ℚ) × String) → List ((ℚ × ℚ) × Option String)
  | _, _, [] => []
  | idx, used, ((t1, t2), kw) :: rest =>
    if idx = 0 ∧ truthy kayla then
      ((t1, t2), kayla) :: genLoop cands kayla (idx + 1) used rest
    else if kw ≠ "" then
      match getBestVideo (cands kw) used with
      | some url =>
        ((t1, t2), some url) :: genLoop cands kayla (idx + 1) (used ++ [linkBase url]) rest
      | none =>
        match getBestVideo (cands "news background") used with
        | some url =>
          ((t1, t2), some url) ::
            genLoop cands kayla (idx + 1) (used ++ [linkBase url]) rest
        | none => ((t1, t2), none) :: genLoop cands kayla (idx + 1) used rest
    else ((t1, t2), none) :: genLoop cands kayla (idx + 1) used rest

/-- `generate_video_url(timed_video_searches, "pexel",
kayla_image_url)`: the loop started at index 0 with no used links. -/
def generate_video_url (cands : String → List VideoFile) (kayla : Option String)
    (searches : List ((ℚ × ℚ) × String)) : List ((ℚ × ℚ) × Option String) :=
  genLoop cands kayla 0 [] searches

/-- `getBestVideo` never returns a link whose base is already used. -/
theorem getBestVideo_fresh (cands : List VideoFile) (used : List String)
    (url : String) (h : getBestVideo cands used = some url) :
    linkBase url ∉ used := by
  induction cands with
  | nil => simp [getBestVideo] at h
  | cons f rest ih =>
    rw [getBestVideo] at h
    by_cases hu : linkBase f.link ∈ used
    · rw [if_pos hu] at h
      exact ih h
    · rw [if_neg hu] at h
      by_cases hd : f.width = 1920 ∧ f.height = 1080
      · rw [if_pos hd] at h
        have : f.link = url := by simpa using h
        rw [← this]
        exact hu
      · rw [if_neg hd] at h
        exact ih h

/-- Invariant of `genLoop` away from the Kayla branch: every URL it
emits has a link base outside `used`, and the emitted URLs have
pairwise distinct link bases. -/
theorem genLoop_fresh (cands : String → List VideoFile) (kayla : Option String) :
    ∀ (rest : List ((ℚ × ℚ) × String)) (idx : ℕ) (used : List String),
    (truthy kayla = false ∨ 1 ≤ idx) →
    (∀ url ∈ (genLoop cands kayla idx used rest).filterMap (fun s => s.2),
      linkBase url ∉ used) ∧
    List.Pairwise (fun u v => linkBase u ≠ linkBase v)
      ((genLoop cands kayla idx used rest).filterMap (fun s => s.2)) := by
  intro rest
  induction rest with
  | nil => intro idx used _; simp [genLoop]
  | cons item rest ih =>
    intro idx used hidx
    obtain ⟨⟨t1, t2⟩, kw⟩ := item
    rw [genLoop]
    have hnk : ¬ (idx = 0 ∧ truthy kayla = true) := by
      rcases hidx with h | h
      · rintro ⟨_, hk⟩; rw [h] at hk; exact Bool.false_ne_true hk
      · rintro ⟨h0, _⟩; omega
    rw [if_neg hnk]
    by_cases hkw : kw ≠ ""
    · rw [if_pos hkw]
      have step : ∀ url, getBestVideo (cands kw) used = some url ∨
          getBestVideo (cands "news background") used = some url →
          (∀ v ∈ (genLoop cands kayla (idx + 1) (used ++ [linkBase url]) rest).filterMap
              (fun s => s.2), linkBase v ∉ used) ∧
          (∀ v ∈ (genLoop cands kayla (idx + 1) (used ++ [linkBase url]) rest).filterMap
              (fun s => s.2), linkBase v ≠ linkBase url) ∧
          List.Pairwise (fun u v => linkBase u ≠ linkBase v)
            ((genLoop cands kayla (idx + 1) (used ++ [linkBase url]) rest).filterMap
              (fun s => s.2)) := by
        intro url _
        obtain ⟨hf, hp⟩ := ih (idx + 1) (used ++ [linkBase url]) (Or.inr (by omega))
        refine ⟨fun v hv hvm => hf v hv (by simp [hvm]), fun v hv => ?_, hp⟩
        intro heq
        exact hf v hv (by simp [heq])
      cases hg : getBestVideo (cands kw) used with
      | some url =>
        obtain ⟨hf, hdist, hp⟩ := step url (Or.inl hg)
        refine ⟨?_, ?_⟩
        · intro v hv
          rw [List.filterMap_cons] at hv
          dsimp only at hv
          rcases List.mem_cons.mp hv with rfl | hv'
          · exact getBestVideo_fresh _ _ _ hg
          · exact hf v hv'
        · rw [List.filterMap_cons]
          dsimp only
          refine List.Pairwise.cons ?_ hp
          intro v hv
          exact fun heq => (hdist v hv) (by rw [heq])
      | none =>
        cases hg2 : getBestVideo (cands "news background") used with
        | some url =>
          obtain ⟨hf, hdist, hp⟩ := step url (Or.inr hg2)
          refine ⟨?_, ?_⟩
          · intro v hv
            rw [List.filterMap_cons] at hv
            dsimp only at hv
            rcases List.mem_cons.mp hv with rfl | hv'
            · exact getBestVideo_fresh _ _ _ hg2
            · exact hf v hv'
          · rw [List.filterMap_cons]
            dsimp only
            refine List.Pairwise.cons ?_ hp
            intro v hv
            exact fun heq => (hdist v hv) (by rw [heq])
        | none =>
          obtain ⟨hf, hp⟩ := ih (idx + 1) used (Or.inr (by omega))
          exact ⟨fun v hv => hf v (by simpa using hv), by simpa using hp⟩
    · rw [if_neg hkw]
      obtain ⟨hf, hp⟩ := ih (idx + 1) used (Or.inr (by omega))
      exact ⟨fun v hv => hf v (by simpa using hv), by simpa using hp⟩

/-- **C10**: in every `generate_video_url` call with
`video_server="pexel"`, the non-`None` URLs obtained from Pexels
searches (the regular per-keyword searches and the generic
`"news background"` fallback — i.e. everything except a Kayla image
placed at index 0) are pairwise distinct: each chosen link's base is
recorded in `used_links`, and `getBestVideo` never returns a link
whose base is already used. -/
theorem generate_video_url_distinct (cands : String → List VideoFile)
    (kayla : Option String) (searches : List ((ℚ × ℚ) × String)) :
    List.Pairwise (fun u v => u ≠ v)
      ((if truthy kayla then (generate_video_url cands kayla searches).tail
        else generate_video_url cands kayla searches).filterMap (fun s => s.2)) := by
  have base : ∀ (l : List ((ℚ × ℚ) × Option String)),
      List.Pairwise (fun u v => linkBase u ≠ linkBase v) (l.filterMap (fun s => s.2)) →
      List.Pairwise (fun u v => u ≠ v) (l.filterMap (fun s => s.2)) := by
    intro l hl
    exact hl.imp (fun hne heq => hne (by rw [heq]))
  cases hk : truthy kayla with
  | false =>
    rw [if_neg (by decide)]
    exact base _ (genLoop_fresh cands kayla searches 0 [] (Or.inl hk)).2
  | true =>
    rw [if_pos rfl]
    cases searches with
    | nil => simp [generate_video_url, genLoop]
    | cons item rest =>
      obtain ⟨⟨t1, t2⟩, kw⟩ := item
      rw [generate_video_url, genLoop, if_pos ⟨rfl, hk⟩]
      exact base _ (genLoop_fresh cands kayla rest 1 [] (Or.inr (by omega))).2
